import Mathlib

/-!
Verification of the grammar-combinator engine in src/index.ts.

The embedding is deep in the rule language: the inductive type Rule below
has one constructor per public combinator (token, concat, first, last, or,
orLongest, not, map, filter, filterMap, opt, rep with star and plus as the
min and max instances, sub, withName).  Parsing is modelled by a
fuel-indexed evaluator: the TypeScript engine performs unbounded recursive
descent, so the Lean evaluator takes an explicit fuel bound and returns
ParseOutcome.outOfFuel when the bound is exhausted.  A run of the source
program that terminates is modelled by the evaluator returning the same
answer for every sufficiently large fuel; a run that loops forever is
modelled by the evaluator returning outOfFuel for every fuel.

Thrown errors (the loop guard, an unknown registry key, and the two driver
errors) are modelled by ParseOutcome.fatal; an ordinary failed match (the
source returning undefined) is ParseOutcome.noMatch.
-/

namespace ParserTs

/-- A token as consumed by the engine: a kind discriminant (field key in the
source) and a payload (field data).  The payload type is not inspected by the
engine, so it is modelled by String. -/
structure Token where
  key : String
  data : String
deriving DecidableEq

/-- Runtime values produced by rules: a token payload, an array of child
values (concat and rep), the undefined value produced by not, and the
OptResult record produced by opt. -/
inductive Value where
  | tok (data : String)
  | list (vs : List Value)
  | undefined
  | optRes (success : Bool) (v : Value)

/-- ParseResult from the source: a value and the end index one past the
consumed span. -/
structure ParseResult where
  value : Value
  endIdx : Nat

/-- The fatal conditions thrown by the source: the recursion guard, a lookup
of an unknown registry key, and the two driver errors. -/
inductive ParseFatal where
  | loopDetected (stack : List String) (item : String)
  | missingRule (key : String)
  | failedToParse
  | trailingInput (tok : Token)

/-- Outcome of a parse attempt: a result, an ordinary no-match (undefined in
the source), a thrown fatal error, or exhaustion of the fuel bound. -/
inductive ParseOutcome (α : Type) where
  | res (r : α)
  | noMatch
  | fatal (e : ParseFatal)
  | outOfFuel

/-- The rule language: one constructor per public combinator of the source. -/
inductive Rule where
  | token (key : String)
  | concat (rules : List Rule)
  | first (rules : List Rule)
  | last (rules : List Rule)
  | or (options : List Rule)
  | orLongest (options : List Rule)
  | not (rule : Rule)
  | map (rule : Rule) (f : Value → Value)
  | filter (rule : Rule) (f : Value → Bool)
  | filterMap (rule : Rule) (f : Value → Bool)
  | opt (rule : Rule)
  | rep (rule : Rule) (sep : Option Rule) (min : Nat) (max : Option Nat)
  | sub (key : String)
  | withName (name : String) (rule : Rule)

/-- Joins child rule names as in the source (Array.join with a comma and a
space). -/
def joinNames (l : List String) : String := String.intercalate ", " l

/-- Diagnostic name chosen by repInternal in the source: star and plus for
the unbounded cases with min 0 and 1, rep with the explicit bounds
otherwise. -/
def repName (subNames : String) (mn : Nat) (mx : Option Nat) : String :=
  match mx with
  | none =>
    if mn = 0 then "star(" ++ subNames ++ ")"
    else if mn = 1 then "plus(" ++ subNames ++ ")"
    else "rep(" ++ subNames ++ ", " ++ toString mn ++ ")"
  | some m => "rep(" ++ subNames ++ ", " ++ toString mn ++ ", " ++ toString m ++ ")"

mutual

/-- The display name of a rule, mirroring the name strings built by each
combinator in the source.  first and last rename the concat rule by
replacing the leading word, which for these name shapes is exactly the
String.replace performed by the source. -/
def Rule.name : Rule → String
  | .token k => "token(" ++ k ++ ")"
  | .concat rs => "concat(" ++ joinNames (nameList rs) ++ ")"
  | .first rs => "first(" ++ joinNames (nameList rs) ++ ")"
  | .last rs => "last(" ++ joinNames (nameList rs) ++ ")"
  | .or rs => "or(" ++ joinNames (nameList rs) ++ ")"
  | .orLongest rs => "orLongest(" ++ joinNames (nameList rs) ++ ")"
  | .not r => "not(" ++ r.name ++ ")"
  | .map r _ => "map(" ++ r.name ++ ", [function])"
  | .filter r _ => "filter(" ++ r.name ++ ", [function])"
  | .filterMap r _ => "filterMap(" ++ r.name ++ ", [function])"
  | .opt r => "opt(" ++ r.name ++ ")"
  | .rep r sep mn mx =>
    repName (match nameOpt sep with
             | none => r.name
             | some s => r.name ++ ", " ++ s) mn mx
  | .sub k => "sub(" ++ k ++ ")"
  | .withName n _ => n

/-- Names of a list of child rules. -/
def nameList : List Rule → List String
  | [] => []
  | r :: rs => r.name :: nameList rs

/-- Name of an optional separator rule. -/
def nameOpt : Option Rule → Option String
  | none => none
  | some r => some r.name

end

/-- The rule registry of a parser: an association list from rule name to
rule, modelling the rules object of the Parser class. -/
abbrev Env := List (String × Rule)

/-- Lookup in the registry, modelling a property access on the rules
object: the source returns undefined for an unknown key. -/
def lookupRule : Env → String → Option Rule
  | [], _ => none
  | (k, r) :: g, key => if k = key then some r else lookupRule g key

/-- The type of the guarded parse entry point of a rule, as a function of
the rule term, the input, the start offset, and the derivation path. -/
abbrev ParseFn := Rule → List Token → Nat → List String → ParseOutcome ParseResult

/-- Projection value[0] used by first; index 0 of an empty array is
undefined in the source. -/
def valueHead : Value → Value
  | .list (v :: _) => v
  | _ => .undefined

/-- Last element of a value list, as in the source access
value[value.length - 1]; undefined for an empty array. -/
def valueLastAux : List Value → Value
  | [] => .undefined
  | [v] => v
  | _ :: v :: vs => valueLastAux (v :: vs)

/-- Projection value[value.length - 1] used by last. -/
def valueLast : Value → Value
  | .list vs => valueLastAux vs
  | _ => .undefined

/-- The loop body of concatInternal: invoke each rule at the end offset of
its predecessor, fail the whole sequence on the first no-match, and
accumulate values in order.  prev is the guarded parse at the enclosing
fuel level. -/
def concatLoop (prev : ParseFn) (input : List Token) (stack : List String) :
    List Rule → List Value → Nat → ParseOutcome (List Value × Nat)
  | [], acc, curEnd => .res (acc, curEnd)
  | r :: rs, acc, curEnd =>
    match prev r input curEnd stack with
    | .res pr => concatLoop prev input stack rs (acc ++ [pr.value]) pr.endIdx
    | .noMatch => .noMatch
    | .fatal e => .fatal e
    | .outOfFuel => .outOfFuel

/-- The loop body of the or combinator: try each option in order from the
same start offset and return the first result. -/
def orLoop (prev : ParseFn) (input : List Token) (start : Nat) (stack : List String) :
    List Rule → ParseOutcome ParseResult
  | [] => .noMatch
  | r :: rs =>
    match prev r input start stack with
    | .res pr => .res pr
    | .noMatch => orLoop prev input start stack rs
    | .fatal e => .fatal e
    | .outOfFuel => .outOfFuel

/-- The best-result update shared by orLongest and the driver: a new result
replaces the current best only when its end offset is strictly greater
(the source condition result.end greater than best.end, or no best yet). -/
def keepLonger (best : Option ParseResult) (pr : ParseResult) : Option ParseResult :=
  match best with
  | none => some pr
  | some b => if pr.endIdx > b.endIdx then some pr else some b

/-- The loop body of orLongest: try every option from the same start offset
and keep the strictly longest result, the first one found on ties. -/
def orLongestLoop (prev : ParseFn) (input : List Token) (start : Nat) (stack : List String) :
    List Rule → Option ParseResult → ParseOutcome ParseResult
  | [], best =>
    match best with
    | some b => .res b
    | none => .noMatch
  | r :: rs, best =>
    match prev r input start stack with
    | .res pr => orLongestLoop prev input start stack rs (keepLonger best pr)
    | .noMatch => orLongestLoop prev input start stack rs best
    | .fatal e => .fatal e
    | .outOfFuel => .outOfFuel

/-- The while loop of repInternal.  Each iteration first attempts the
separator (when configured) at the current end; if the separator fails the
loop stops.  It then attempts the element rule at the position after the
separator (or at the current end when no separator is configured); if the
element fails the loop stops with the end offset still at the position
before the separator attempt.  The iteration count is bounded by the fuel
argument, which models the unbounded source loop. -/
def repLoop (prev : ParseFn) (rule : Rule) (sep : Option Rule) (input : List Token)
    (stack : List String) : Nat → List Value → Nat → ParseOutcome (List Value × Nat)
  | 0, _, _ => .outOfFuel
  | iter + 1, acc, curEnd =>
    match sep with
    | none =>
      match prev rule input curEnd stack with
      | .res pr => repLoop prev rule sep input stack iter (acc ++ [pr.value]) pr.endIdx
      | .noMatch => .res (acc, curEnd)
      | .fatal e => .fatal e
      | .outOfFuel => .outOfFuel
    | some s =>
      match prev s input curEnd stack with
      | .res sepRes =>
        match prev rule input sepRes.endIdx stack with
        | .res pr => repLoop prev rule sep input stack iter (acc ++ [pr.value]) pr.endIdx
        | .noMatch => .res (acc, curEnd)
        | .fatal e => .fatal e
        | .outOfFuel => .outOfFuel
      | .noMatch => .res (acc, curEnd)
      | .fatal e => .fatal e
      | .outOfFuel => .outOfFuel

/-- The greedy phase of repInternal: one attempt of the element rule at the
start offset, count zero if it fails, otherwise the repetition loop. -/
def repGreedy (prev : ParseFn) (fuel : Nat) (rule : Rule) (sep : Option Rule)
    (input : List Token) (start : Nat) (stack : List String) :
    ParseOutcome (List Value × Nat) :=
  match prev rule input start stack with
  | .noMatch => .res ([], start)
  | .res pr => repLoop prev rule sep input stack fuel [pr.value] pr.endIdx
  | .fatal e => .fatal e
  | .outOfFuel => .outOfFuel

/-- The parse function stored in each rule (parseInternal in the source),
receiving the derivation path already extended by the guarded entry point.
prev is the guarded parse available for sub-rule invocations, and fuel
bounds the repetition loop. -/
def parseInternal (g : Env) (prev : ParseFn) (fuel : Nat) :
    Rule → List Token → Nat → List String → ParseOutcome ParseResult
  | .token k, input, start, _ =>
    if input.length ≤ start then .noMatch
    else
      let t := input.getD start ⟨"", ""⟩
      if t.key = k then .res ⟨.tok t.data, start + 1⟩ else .noMatch
  | .concat rs, input, start, stack =>
    match concatLoop prev input stack rs [] start with
    | .res (vs, e) => .res ⟨.list vs, e⟩
    | .noMatch => .noMatch
    | .fatal e => .fatal e
    | .outOfFuel => .outOfFuel
  | .first rs, input, start, stack =>
    match prev (.concat rs) input start stack with
    | .res pr => .res ⟨valueHead pr.value, pr.endIdx⟩
    | .noMatch => .noMatch
    | .fatal e => .fatal e
    | .outOfFuel => .outOfFuel
  | .last rs, input, start, stack =>
    match prev (.concat rs) input start stack with
    | .res pr => .res ⟨valueLast pr.value, pr.endIdx⟩
    | .noMatch => .noMatch
    | .fatal e => .fatal e
    | .outOfFuel => .outOfFuel
  | .or opts, input, start, stack => orLoop prev input start stack opts
  | .orLongest opts, input, start, stack => orLongestLoop prev input start stack opts none
  | .not r, input, start, stack =>
    match prev r input start stack with
    | .res _ => .noMatch
    | .noMatch => .res ⟨.undefined, start⟩
    | .fatal e => .fatal e
    | .outOfFuel => .outOfFuel
  | .map r f, input, start, stack =>
    match prev r input start stack with
    | .res pr => .res ⟨f pr.value, pr.endIdx⟩
    | .noMatch => .noMatch
    | .fatal e => .fatal e
    | .outOfFuel => .outOfFuel
  | .filter r f, input, start, stack =>
    match prev r input start stack with
    | .res pr => if f pr.value then .res pr else .noMatch
    | .noMatch => .noMatch
    | .fatal e => .fatal e
    | .outOfFuel => .outOfFuel
  | .filterMap r f, input, start, stack =>
    match prev r input start stack with
    | .res pr => if f pr.value then .res pr else .noMatch
    | .noMatch => .noMatch
    | .fatal e => .fatal e
    | .outOfFuel => .outOfFuel
  | .opt r, input, start, stack =>
    match prev r input start stack with
    | .res pr => .res ⟨.optRes true pr.value, pr.endIdx⟩
    | .noMatch => .res ⟨.optRes false .undefined, start⟩
    | .fatal e => .fatal e
    | .outOfFuel => .outOfFuel
  | .rep rule sep mn mx, input, start, stack =>
    match repGreedy prev fuel rule sep input start stack with
    | .res (vs, e) =>
      if vs.length < mn then .noMatch
      else
        match mx with
        | some m => if m < vs.length then .noMatch else .res ⟨.list vs, e⟩
        | none => .res ⟨.list vs, e⟩
    | .noMatch => .noMatch
    | .fatal e => .fatal e
    | .outOfFuel => .outOfFuel
  | .sub k, input, start, stack =>
    match lookupRule g k with
    | some r => prev r input start stack
    | none => .fatal (.missingRule k)
  | .withName _ r, input, start, stack => parseInternal g prev fuel r input start stack

/-- The identity marker of a rule invocation, the string name:start built
by the parse method of ParserRule. -/
def Rule.marker (r : Rule) (start : Nat) : String :=
  r.name ++ ":" ++ toString start

/-- The guarded parse entry point of a rule (the parse method of
ParserRule).  It computes the identity marker name:start, throws the loop
error when the marker already occurs in the derivation path, and otherwise
runs the underlying parse function with the path extended by the marker. -/
def parse (g : Env) : Nat → ParseFn
  | 0 => fun _ _ _ _ => .outOfFuel
  | fuel + 1 => fun r input start stack =>
    let item := r.marker start
    if stack.contains item then .fatal (.loopDetected stack item)
    else parseInternal g (parse g fuel) fuel r input start (stack ++ [item])

/-- A parser: the ordered list of root rule names and the registry. -/
structure Parser where
  roots : List String
  rules : Env

/-- Parser construction: after the registry is built, every rule is
re-tagged with its registry key as display name. -/
def mkParser (roots : List String) (raw : Env) : Parser :=
  { roots := roots, rules := raw.map (fun p => (p.1, Rule.withName p.1 p.2)) }

/-- The root loop of the driver: attempt every root at offset 0 with an
empty derivation path and keep the strictly longest result. -/
def rootsLoop (g : Env) (fuel : Nat) (input : List Token) :
    List String → Option ParseResult → ParseOutcome ParseResult
  | [], best =>
    match best with
    | some b => .res b
    | none => .noMatch
  | k :: ks, best =>
    match lookupRule g k with
    | none => .fatal (.missingRule k)
    | some r =>
      match parse g fuel r input 0 [] with
      | .res pr => rootsLoop g fuel input ks (keepLonger best pr)
      | .noMatch => rootsLoop g fuel input ks best
      | .fatal e => .fatal e
      | .outOfFuel => .outOfFuel

/-- The top-level parse of the driver: run the root loop, throw
failedToParse when no root matched, throw trailingInput with the first
unconsumed token when the best result did not consume the whole input, and
return the best value otherwise. -/
def Parser.parse (p : Parser) (fuel : Nat) (input : List Token) : ParseOutcome Value :=
  match rootsLoop p.rules fuel input p.roots none with
  | .noMatch => .fatal .failedToParse
  | .res pr =>
    if pr.endIdx < input.length then .fatal (.trailingInput (input.getD pr.endIdx ⟨"", ""⟩))
    else .res pr.value
  | .fatal e => .fatal e
  | .outOfFuel => .outOfFuel

/-- True for the outcomes that abort the surrounding loop in the source: a
thrown error, or exhaustion of the fuel bound of the model. -/
def ParseOutcome.isAbort : ParseOutcome α → Bool
  | .fatal _ => true
  | .outOfFuel => true
  | _ => false

/-- Forgets everything but a successful result, giving the undefined-or-
result view that the source loops branch on. -/
def ParseOutcome.toOption : ParseOutcome α → Option α
  | .res r => some r
  | _ => none

/-- The attempt the driver makes for one root name: look the root up in the
registry and parse from offset 0 with an empty derivation path. -/
def rootAttempt (g : Env) (fuel : Nat) (input : List Token) (k : String) :
    ParseOutcome ParseResult :=
  match lookupRule g k with
  | none => .fatal (.missingRule k)
  | some r => parse g fuel r input 0 []

/-- The list of per-root attempt results of the driver, viewed as optional
parse results in root order. -/
def rootAtts (p : Parser) (fuel : Nat) (input : List Token) : List (Option ParseResult) :=
  p.roots.map (fun k => (rootAttempt p.rules fuel input k).toOption)

/-- The list of per-option attempt results of orLongest, in option order,
against the derivation path already extended by the orLongest marker. -/
def orLongestAtts (g : Env) (fuel : Nat) (opts : List Rule) (input : List Token)
    (start : Nat) (stack' : List String) : List (Option ParseResult) :=
  opts.map (fun r => (parse g fuel r input start stack').toOption)

/-- The longest-selection fold shared by orLongest and the driver, applied
to an already-computed list of attempt outcomes: thrown errors and fuel
exhaustion abort, results feed the strictly-longest update, and the final
best (when any) is returned. -/
def selLoop : List (ParseOutcome ParseResult) → Option ParseResult → ParseOutcome ParseResult
  | [], best =>
    match best with
    | some b => .res b
    | none => .noMatch
  | a :: rest, best =>
    match a with
    | .res pr => selLoop rest (keepLonger best pr)
    | .noMatch => selLoop rest best
    | .fatal e => .fatal e
    | .outOfFuel => .outOfFuel

/-- Merges an earlier candidate with the best of the later attempts,
later winning only on a strictly greater end offset. -/
def merge2 : Option ParseResult → Option ParseResult → Option ParseResult
  | b, none => b
  | b, some pr => keepLonger b pr

/-- The specification-level selection: the first result with the greatest
end offset among a list of optional results. -/
def pickLongest : List (Option ParseResult) → Option ParseResult
  | [] => none
  | a :: rest => merge2 a (pickLongest rest)

/-- A chained sequential run of a list of rules: each rule is invoked at
the end offset of its predecessor and succeeds, producing the listed
values in order and the final end offset. -/
inductive Chain (prev : ParseFn) (input : List Token) (stack : List String) :
    List Rule → Nat → List Value → Nat → Prop where
  | nil (s : Nat) : Chain prev input stack [] s [] s
  | cons {r : Rule} {rs : List Rule} {s : Nat} {pr : ParseResult} {vs : List Value} {e : Nat} :
      prev r input s stack = .res pr →
      Chain prev input stack rs pr.endIdx vs e →
      Chain prev input stack (r :: rs) s (pr.value :: vs) e

/-- A parse function whose successful results never move backward and never
report a position past the end of the input. -/
def PrevBounded (prev : ParseFn) (input : List Token) : Prop :=
  ∀ r start stack pr, start ≤ input.length →
    prev r input start stack = .res pr →
    start ≤ pr.endIdx ∧ pr.endIdx ≤ input.length

/-- An element rule that can succeed without consuming input: opt always
succeeds, with the end offset reset to the start on absence. -/
def nullableElem : Rule := .opt (.token "A")

/-- The repetition star(opt(token(A))), whose element rule succeeds without
consuming input at the end of the input. -/
def nullableStar : Rule := .rep nullableElem none 0 none

/-- A parser whose single root is star(opt(token(A))). -/
def nullableStarParser : Parser := mkParser ["r"] [("r", nullableStar)]

/-- A two-root parser used to exercise the driver: root a matches one A
token, root b matches two. -/
def selParser : Parser :=
  mkParser ["a", "b"] [("a", .token "A"), ("b", .concat [.token "A", .token "A"])]

/-- Two options for orLongest: one matching two tokens, one matching
three. -/
def longOptsW : List Rule :=
  [.concat [.token "A", .token "A"], .concat [.token "A", .token "A", .token "A"]]

/-- A three-token input. -/
def inputW3 : List Token := [⟨"A", "x"⟩, ⟨"A", "y"⟩, ⟨"A", "z"⟩]

/-! Helper lemmas. -/

/-- Unfolding of the guarded entry point at positive fuel. -/
theorem parse_unfold (g : Env) (fuel : Nat) (r : Rule) (input : List Token) (start : Nat)
    (stack : List String) :
    parse g (fuel + 1) r input start stack =
      if stack.contains (r.marker start) then .fatal (.loopDetected stack (r.marker start))
      else parseInternal g (parse g fuel) fuel r input start (stack ++ [r.marker start]) := rfl

/-- The opt element of the nullable star succeeds without consuming input on
an empty input, for every fuel at least 2. -/
theorem opt_nullable_eval (f : Nat) :
    parse nullableStarParser.rules (f + 2) nullableElem [] 0 ["r:0"] =
      .res ⟨.optRes false .undefined, 0⟩ := rfl

/-- The repetition loop over the nullable element never stops: it exhausts
every iteration budget. -/
theorem repLoop_nullable_oof : ∀ (iter f : Nat) (acc : List Value),
    repLoop (parse nullableStarParser.rules f) nullableElem none [] ["r:0"] iter acc 0 =
      .outOfFuel := by
  intro iter
  induction iter with
  | zero => intro f acc; rfl
  | succ n ih =>
    intro f acc
    match f with
    | 0 => rfl
    | 1 => rfl
    | f + 2 =>
      simp only [repLoop, opt_nullable_eval]
      exact ih (f + 2) _

/-- The root rule of the nullable-star parser exhausts every fuel bound on
the empty input. -/
theorem rootRule_nullable_oof : ∀ fuel,
    parse nullableStarParser.rules fuel (.withName "r" nullableStar) [] 0 [] = .outOfFuel := by
  intro fuel
  match fuel with
  | 0 => rfl
  | 1 => rfl
  | 2 => rfl
  | f + 3 =>
    have h1 : parse nullableStarParser.rules (f + 3) (.withName "r" nullableStar) [] 0 [] =
        parseInternal nullableStarParser.rules (parse nullableStarParser.rules (f + 2)) (f + 2)
          (.withName "r" nullableStar) [] 0 ["r:0"] := rfl
    rw [h1]
    simp only [parseInternal, nullableStar, repGreedy, opt_nullable_eval, repLoop_nullable_oof]

/-- keepLonger is merging with a single later candidate. -/
theorem keepLonger_eq_merge2 (b : Option ParseResult) (pr : ParseResult) :
    keepLonger b pr = merge2 b (some pr) := rfl

/-- Merging with no earlier candidate returns the later best. -/
theorem merge2_none_left (p : Option ParseResult) : merge2 none p = p := by
  cases p <;> rfl

/-- The strictly-longest merge is associative: it picks the leftmost
result among those with the greatest end offset, however grouped. -/
theorem merge2_assoc (a b c : Option ParseResult) :
    merge2 (merge2 a b) c = merge2 a (merge2 b c) := by
  cases c with
  | none => rfl
  | some pc =>
    cases b with
    | none => rfl
    | some pb =>
      cases a with
      | none => rw [show merge2 none (some pb) = some pb from rfl, merge2_none_left]
      | some pa =>
        by_cases h1 : pb.endIdx > pa.endIdx
        · by_cases h2 : pc.endIdx > pb.endIdx
          · have h3 : pc.endIdx > pa.endIdx := by omega
            simp [merge2, keepLonger, h1, h2, h3]
          · simp [merge2, keepLonger, h1, h2]
        · by_cases h2 : pc.endIdx > pb.endIdx
          · simp [merge2, keepLonger, h1, h2]
          · have h3 : ¬ pc.endIdx > pa.endIdx := by omega
            simp [merge2, keepLonger, h1, h2, h3]

/-- A none head does not affect the selection. -/
theorem pickLongest_cons_none (l : List (Option ParseResult)) :
    pickLongest (none :: l) = pickLongest l := merge2_none_left _

/-- The selection fold on computed attempts, given that no attempt aborts,
returns the merge of the running best with the specification-level
selection over the optional results. -/
theorem selLoop_noAbort : ∀ (atts : List (ParseOutcome ParseResult)) (best : Option ParseResult),
    (∀ a ∈ atts, a.isAbort = false) →
    selLoop atts best =
      (match merge2 best (pickLongest (atts.map ParseOutcome.toOption)) with
       | some b => .res b
       | none => .noMatch) := by
  intro atts
  induction atts with
  | nil => intro best _; rfl
  | cons a rest ih =>
    intro best h
    have hrest : ∀ x ∈ rest, x.isAbort = false := fun x hx => h x (List.mem_cons_of_mem _ hx)
    cases a with
    | res pr =>
      show selLoop rest (keepLonger best pr) = _
      rw [ih (keepLonger best pr) hrest]
      simp only [List.map_cons, ParseOutcome.toOption, pickLongest]
      rw [keepLonger_eq_merge2, merge2_assoc]
    | noMatch =>
      show selLoop rest best = _
      rw [ih best hrest]
      simp only [List.map_cons, ParseOutcome.toOption, pickLongest_cons_none]
    | fatal e =>
      have := h _ (List.mem_cons_self _ _)
      simp [ParseOutcome.isAbort] at this
    | outOfFuel =>
      have := h _ (List.mem_cons_self _ _)
      simp [ParseOutcome.isAbort] at this

/-- The selection is empty exactly when every attempt failed. -/
theorem pickLongest_eq_none_iff : ∀ (l : List (Option ParseResult)),
    pickLongest l = none ↔ ∀ a ∈ l, a = none := by
  intro l
  induction l with
  | nil => simp [pickLongest]
  | cons a rest ih =>
    cases a with
    | none =>
      rw [show pickLongest (none :: rest) = pickLongest rest from merge2_none_left _, ih]
      simp
    | some pr =>
      constructor
      · intro h
        exfalso
        rw [show pickLongest (some pr :: rest) = merge2 (some pr) (pickLongest rest) from rfl] at h
        cases hp : pickLongest rest with
        | none => rw [hp] at h; exact Option.noConfusion h
        | some pb =>
          rw [hp] at h
          simp only [merge2, keepLonger] at h
          split_ifs at h
      · intro h
        exact absurd (h (some pr) (List.mem_cons_self _ _)) (by simp)

/-- An attempt found at some index is a member of the attempt list. -/
theorem getD_mem_of_some : ∀ (l : List (Option ParseResult)) (j : Nat) (pr : ParseResult),
    l.getD j none = some pr → some pr ∈ l := by
  intro l
  induction l with
  | nil => intro j pr h; simp [List.getD] at h
  | cons a rest ih =>
    intro j pr h
    cases j with
    | zero => rw [List.getD_cons_zero] at h; exact h ▸ List.mem_cons_self _ _
    | succ j => rw [List.getD_cons_succ] at h; exact List.mem_cons_of_mem _ (ih j pr h)

/-- Correctness of the specification-level selection: the selected result
occurs in the list, no result in the list has a greater end offset, and
every earlier success has a strictly smaller end offset, so the selection
is the first result with the greatest end offset. -/
theorem pickLongest_spec : ∀ (l : List (Option ParseResult)) (pr : ParseResult),
    pickLongest l = some pr →
    ∃ i, l.getD i none = some pr ∧
      (∀ j pr2, l.getD j none = some pr2 → pr2.endIdx ≤ pr.endIdx) ∧
      (∀ j, j < i → ∀ pr2, l.getD j none = some pr2 → pr2.endIdx < pr.endIdx) := by
  intro l
  induction l with
  | nil => intro pr h; exact absurd h (by simp [pickLongest])
  | cons a rest ih =>
    intro pr h
    cases a with
    | none =>
      rw [show pickLongest (none :: rest) = pickLongest rest from merge2_none_left _] at h
      obtain ⟨i, h1, h2, h3⟩ := ih pr h
      refine ⟨i + 1, by simpa using h1, ?_, ?_⟩
      · intro j pr2 hj
        cases j with
        | zero => rw [List.getD_cons_zero] at hj; exact Option.noConfusion hj
        | succ j => rw [List.getD_cons_succ] at hj; exact h2 j pr2 hj
      · intro j hji pr2 hj
        cases j with
        | zero => rw [List.getD_cons_zero] at hj; exact Option.noConfusion hj
        | succ j => rw [List.getD_cons_succ] at hj; exact h3 j (by omega) pr2 hj
    | some pa =>
      rw [show pickLongest (some pa :: rest) = merge2 (some pa) (pickLongest rest) from rfl] at h
      cases hp : pickLongest rest with
      | none =>
        rw [hp] at h
        have hpr : pa = pr := by simpa [merge2] using h
        have hall := (pickLongest_eq_none_iff rest).1 hp
        subst hpr
        refine ⟨0, by simp, ?_, ?_⟩
        · intro j pr2 hj
          cases j with
          | zero =>
            rw [List.getD_cons_zero] at hj
            cases hj
            exact le_refl _
          | succ j =>
            rw [List.getD_cons_succ] at hj
            exact absurd (hall _ (getD_mem_of_some rest j pr2 hj)) (by simp)
        · intro j hj; omega
      | some pb =>
        rw [hp] at h
        obtain ⟨i, h1, h2, h3⟩ := ih pb hp
        by_cases hcmp : pb.endIdx > pa.endIdx
        · have hpr : pb = pr := by simpa [merge2, keepLonger, hcmp] using h
          subst hpr
          refine ⟨i + 1, by simpa using h1, ?_, ?_⟩
          · intro j pr2 hj
            cases j with
            | zero =>
              rw [List.getD_cons_zero] at hj
              cases hj
              omega
            | succ j => rw [List.getD_cons_succ] at hj; exact h2 j pr2 hj
          · intro j hji pr2 hj
            cases j with
            | zero =>
              rw [List.getD_cons_zero] at hj
              cases hj
              omega
            | succ j => rw [List.getD_cons_succ] at hj; exact h3 j (by omega) pr2 hj
        · have hpr : pa = pr := by simpa [merge2, keepLonger, hcmp] using h
          subst hpr
          refine ⟨0, by simp, ?_, ?_⟩
          · intro j pr2 hj
            cases j with
            | zero =>
              rw [List.getD_cons_zero] at hj
              cases hj
              exact le_refl _
            | succ j =>
              rw [List.getD_cons_succ] at hj
              have := h2 j pr2 hj
              omega
          · intro j hj; omega

/-- The root loop of the driver is the selection fold over the per-root
attempts. -/
theorem rootsLoop_eq_selLoop (g : Env) (fuel : Nat) (input : List Token) :
    ∀ (ks : List String) (best : Option ParseResult),
    rootsLoop g fuel input ks best = selLoop (ks.map (rootAttempt g fuel input)) best := by
  intro ks
  induction ks with
  | nil => intro best; rfl
  | cons k rest ih =>
    intro best
    cases hl : lookupRule g k with
    | none => simp only [rootsLoop, List.map_cons, selLoop, rootAttempt, hl]
    | some r =>
      cases hp : parse g fuel r input 0 [] with
      | res pr =>
        simp only [rootsLoop, List.map_cons, selLoop, rootAttempt, hl, hp]
        exact ih (keepLonger best pr)
      | noMatch =>
        simp only [rootsLoop, List.map_cons, selLoop, rootAttempt, hl, hp]
        exact ih best
      | fatal e => simp only [rootsLoop, List.map_cons, selLoop, rootAttempt, hl, hp]
      | outOfFuel => simp only [rootsLoop, List.map_cons, selLoop, rootAttempt, hl, hp]

/-- The orLongest loop is the selection fold over the per-option attempts. -/
theorem orLongestLoop_eq_selLoop (prev : ParseFn) (input : List Token) (start : Nat)
    (stack : List String) :
    ∀ (opts : List Rule) (best : Option ParseResult),
    orLongestLoop prev input start stack opts best =
      selLoop (opts.map (fun r => prev r input start stack)) best := by
  intro opts
  induction opts with
  | nil => intro best; rfl
  | cons r rest ih =>
    intro best
    cases hp : prev r input start stack with
    | res pr =>
      simp only [orLongestLoop, List.map_cons, selLoop, hp]
      exact ih (keepLonger best pr)
    | noMatch =>
      simp only [orLongestLoop, List.map_cons, selLoop, hp]
      exact ih best
    | fatal e => simp only [orLongestLoop, List.map_cons, selLoop, hp]
    | outOfFuel => simp only [orLongestLoop, List.map_cons, selLoop, hp]

/-- A thrown error aborts the selection fold even after earlier successes,
provided every earlier attempt ran without aborting. -/
theorem selLoop_fatal_propagates :
    ∀ (atts1 : List (ParseOutcome ParseResult)) (e : ParseFatal)
      (rest : List (ParseOutcome ParseResult)) (best : Option ParseResult),
    (∀ a ∈ atts1, a.isAbort = false) →
    selLoop (atts1 ++ .fatal e :: rest) best = .fatal e := by
  intro atts1
  induction atts1 with
  | nil => intro e rest best _; rfl
  | cons a as ih =>
    intro e rest best h
    have has : ∀ x ∈ as, x.isAbort = false := fun x hx => h x (List.mem_cons_of_mem _ hx)
    cases a with
    | res pr => exact ih e rest (keepLonger best pr) has
    | noMatch => exact ih e rest best has
    | fatal e2 =>
      have := h _ (List.mem_cons_self _ _)
      simp [ParseOutcome.isAbort] at this
    | outOfFuel =>
      have := h _ (List.mem_cons_self _ _)
      simp [ParseOutcome.isAbort] at this

/-- The concat loop succeeds exactly on a chained sequential run of its
remaining rules, appending the chained values to the accumulator. -/
theorem concatLoop_res_iff (prev : ParseFn) (input : List Token) (stack : List String) :
    ∀ (rs : List Rule) (acc : List Value) (cur : Nat) (w : List Value) (e : Nat),
    concatLoop prev input stack rs acc cur = .res (w, e) ↔
      ∃ vs, w = acc ++ vs ∧ Chain prev input stack rs cur vs e := by
  intro rs
  induction rs with
  | nil =>
    intro acc cur w e
    constructor
    · intro h
      have h1 : acc = w ∧ cur = e := by
        simpa [concatLoop] using h
      obtain ⟨h1, h2⟩ := h1
      subst h1
      subst h2
      exact ⟨[], by simp, Chain.nil cur⟩
    · rintro ⟨vs, hw, hch⟩
      cases hch
      simp [concatLoop, hw]
  | cons r rest ih =>
    intro acc cur w e
    cases hp : prev r input cur stack with
    | res pr =>
      constructor
      · intro h
        simp only [concatLoop, hp] at h
        obtain ⟨vs, hw, hch⟩ := (ih (acc ++ [pr.value]) pr.endIdx w e).1 h
        refine ⟨pr.value :: vs, ?_, Chain.cons hp hch⟩
        rw [hw]
        simp
      · rintro ⟨vs, hw, hch⟩
        cases hch with
        | cons hp2 hch2 =>
          rw [hp] at hp2
          injection hp2 with h3
          subst h3
          simp only [concatLoop, hp]
          refine (ih (acc ++ [pr.value]) pr.endIdx w e).2 ⟨_, ?_, hch2⟩
          rw [hw]
          simp
    | noMatch =>
      constructor
      · intro h
        simp only [concatLoop, hp] at h
        exact ParseOutcome.noConfusion h
      · rintro ⟨vs, hw, hch⟩
        cases hch with
        | cons hp2 hch2 =>
          rw [hp] at hp2
          exact ParseOutcome.noConfusion hp2
    | fatal e2 =>
      constructor
      · intro h
        simp only [concatLoop, hp] at h
        exact ParseOutcome.noConfusion h
      · rintro ⟨vs, hw, hch⟩
        cases hch with
        | cons hp2 hch2 =>
          rw [hp] at hp2
          exact ParseOutcome.noConfusion hp2
    | outOfFuel =>
      constructor
      · intro h
        simp only [concatLoop, hp] at h
        exact ParseOutcome.noConfusion h
      · rintro ⟨vs, hw, hch⟩
        cases hch with
        | cons hp2 hch2 =>
          rw [hp] at hp2
          exact ParseOutcome.noConfusion hp2

/-- The concat loop fails exactly when some leading part of the remaining rules
chains successfully and the next rule then fails at the chained offset. -/
theorem concatLoop_noMatch_iff (prev : ParseFn) (input : List Token) (stack : List String) :
    ∀ (rs : List Rule) (acc : List Value) (cur : Nat),
    concatLoop prev input stack rs acc cur = .noMatch ↔
      ∃ rs1 r rs2 vs m, rs = rs1 ++ r :: rs2 ∧ Chain prev input stack rs1 cur vs m ∧
        prev r input m stack = .noMatch := by
  intro rs
  induction rs with
  | nil =>
    intro acc cur
    constructor
    · intro h
      exact absurd h (by simp [concatLoop])
    · rintro ⟨rs1, r, rs2, vs, m, heq, -, -⟩
      cases rs1 <;> simp at heq
  | cons r0 rest ih =>
    intro acc cur
    cases hp : prev r0 input cur stack with
    | res pr =>
      constructor
      · intro h
        simp only [concatLoop, hp] at h
        obtain ⟨rs1, r, rs2, vs, m, heq, hch, hnm⟩ := (ih (acc ++ [pr.value]) pr.endIdx).1 h
        exact ⟨r0 :: rs1, r, rs2, pr.value :: vs, m, by rw [heq]; rfl,
          Chain.cons hp hch, hnm⟩
      · rintro ⟨rs1, r, rs2, vs, m, heq, hch, hnm⟩
        cases rs1 with
        | nil =>
          injection heq with h1 h2
          subst h1
          cases hch
          rw [hp] at hnm
          exact ParseOutcome.noConfusion hnm
        | cons r1 rs1t =>
          injection heq with h1 h2
          subst h1
          cases hch with
          | cons hp2 hch2 =>
            rw [hp] at hp2
            injection hp2 with h3
            subst h3
            simp only [concatLoop, hp]
            exact (ih (acc ++ [pr.value]) pr.endIdx).2 ⟨rs1t, r, rs2, _, m, h2, hch2, hnm⟩
    | noMatch =>
      constructor
      · intro _
        exact ⟨[], r0, rest, [], cur, rfl, Chain.nil cur, hp⟩
      · intro _
        simp only [concatLoop, hp]
    | fatal e2 =>
      constructor
      · intro h
        simp only [concatLoop, hp] at h
        exact ParseOutcome.noConfusion h
      · rintro ⟨rs1, r, rs2, vs, m, heq, hch, hnm⟩
        cases rs1 with
        | nil =>
          injection heq with h1 h2
          subst h1
          cases hch
          rw [hp] at hnm
          exact ParseOutcome.noConfusion hnm
        | cons r1 rs1t =>
          injection heq with h1 h2
          subst h1
          cases hch with
          | cons hp2 hch2 =>
            rw [hp] at hp2
            exact ParseOutcome.noConfusion hp2
    | outOfFuel =>
      constructor
      · intro h
        simp only [concatLoop, hp] at h
        exact ParseOutcome.noConfusion h
      · rintro ⟨rs1, r, rs2, vs, m, heq, hch, hnm⟩
        cases rs1 with
        | nil =>
          injection heq with h1 h2
          subst h1
          cases hch
          rw [hp] at hnm
          exact ParseOutcome.noConfusion hnm
        | cons r1 rs1t =>
          injection heq with h1 h2
          subst h1
          cases hch with
          | cons hp2 hch2 =>
            rw [hp] at hp2
            exact ParseOutcome.noConfusion hp2

/-- Bounds for the concat loop: a successful run ends at or after the
current offset and within the input. -/
theorem concatLoop_bounds (prev : ParseFn) (input : List Token) (stack : List String)
    (H : PrevBounded prev input) :
    ∀ (rs : List Rule) (acc : List Value) (cur : Nat) (vs : List Value) (e : Nat),
    cur ≤ input.length → concatLoop prev input stack rs acc cur = .res (vs, e) →
    cur ≤ e ∧ e ≤ input.length := by
  intro rs
  induction rs with
  | nil =>
    intro acc cur vs e hcur h
    have h1 : acc = vs ∧ cur = e := by simpa [concatLoop] using h
    omega
  | cons r rest ih =>
    intro acc cur vs e hcur h
    cases hp : prev r input cur stack with
    | res pr =>
      simp only [concatLoop, hp] at h
      have hb := H r cur stack pr hcur hp
      have := ih (acc ++ [pr.value]) pr.endIdx vs e (by omega) h
      omega
    | noMatch =>
      simp only [concatLoop, hp] at h
      exact ParseOutcome.noConfusion h
    | fatal e2 =>
      simp only [concatLoop, hp] at h
      exact ParseOutcome.noConfusion h
    | outOfFuel =>
      simp only [concatLoop, hp] at h
      exact ParseOutcome.noConfusion h

/-- Bounds for the repetition loop: a stopped run ends at or after the
current offset and within the input. -/
theorem repLoop_bounds (prev : ParseFn) (rule : Rule) (sep : Option Rule) (input : List Token)
    (stack : List String) (H : PrevBounded prev input) :
    ∀ (iter : Nat) (acc : List Value) (cur : Nat) (vs : List Value) (e : Nat),
    cur ≤ input.length → repLoop prev rule sep input stack iter acc cur = .res (vs, e) →
    cur ≤ e ∧ e ≤ input.length := by
  intro iter
  induction iter with
  | zero =>
    intro acc cur vs e _ h
    exact ParseOutcome.noConfusion h
  | succ n ih =>
    intro acc cur vs e hcur h
    cases sep with
    | none =>
      cases hp : prev rule input cur stack with
      | res pr =>
        simp only [repLoop, hp] at h
        have hb := H rule cur stack pr hcur hp
        have := ih (acc ++ [pr.value]) pr.endIdx vs e (by omega) h
        omega
      | noMatch =>
        have h1 : acc = vs ∧ cur = e := by simpa [repLoop, hp] using h
        omega
      | fatal e2 =>
        simp only [repLoop, hp] at h
        exact ParseOutcome.noConfusion h
      | outOfFuel =>
        simp only [repLoop, hp] at h
        exact ParseOutcome.noConfusion h
    | some s =>
      cases hps : prev s input cur stack with
      | res sepRes =>
        have hbs := H s cur stack sepRes hcur hps
        cases hp : prev rule input sepRes.endIdx stack with
        | res pr =>
          simp only [repLoop, hps, hp] at h
          have hb := H rule sepRes.endIdx stack pr (by omega) hp
          have := ih (acc ++ [pr.value]) pr.endIdx vs e (by omega) h
          omega
        | noMatch =>
          have h1 : acc = vs ∧ cur = e := by simpa [repLoop, hps, hp] using h
          omega
        | fatal e2 =>
          simp only [repLoop, hps, hp] at h
          exact ParseOutcome.noConfusion h
        | outOfFuel =>
          simp only [repLoop, hps, hp] at h
          exact ParseOutcome.noConfusion h
      | noMatch =>
        have h1 : acc = vs ∧ cur = e := by simpa [repLoop, hps] using h
        omega
      | fatal e2 =>
        simp only [repLoop, hps] at h
        exact ParseOutcome.noConfusion h
      | outOfFuel =>
        simp only [repLoop, hps] at h
        exact ParseOutcome.noConfusion h

/-- Bounds for the greedy phase of a repetition. -/
theorem repGreedy_bounds (prev : ParseFn) (fuel : Nat) (rule : Rule) (sep : Option Rule)
    (input : List Token) (start : Nat) (stack : List String) (H : PrevBounded prev input)
    (vs : List Value) (e : Nat) (hs : start ≤ input.length)
    (h : repGreedy prev fuel rule sep input start stack = .res (vs, e)) :
    start ≤ e ∧ e ≤ input.length := by
  cases hp : prev rule input start stack with
  | res pr =>
    simp only [repGreedy, hp] at h
    have hb := H rule start stack pr hs hp
    have := repLoop_bounds prev rule sep input stack H fuel [pr.value] pr.endIdx vs e
      (by omega) h
    omega
  | noMatch =>
    have h1 : ([] : List Value) = vs ∧ start = e := by simpa [repGreedy, hp] using h
    omega
  | fatal e2 =>
    simp only [repGreedy, hp] at h
    exact ParseOutcome.noConfusion h
  | outOfFuel =>
    simp only [repGreedy, hp] at h
    exact ParseOutcome.noConfusion h

/-- Bounds for ordered choice: the returned result comes from one of the
options tried at the start offset. -/
theorem orLoop_bounds (prev : ParseFn) (input : List Token) (start : Nat) (stack : List String)
    (H : PrevBounded prev input) :
    ∀ (opts : List Rule) (pr : ParseResult), start ≤ input.length →
    orLoop prev input start stack opts = .res pr →
    start ≤ pr.endIdx ∧ pr.endIdx ≤ input.length := by
  intro opts
  induction opts with
  | nil =>
    intro pr _ h
    exact ParseOutcome.noConfusion h
  | cons r rest ih =>
    intro pr hs h
    cases hp : prev r input start stack with
    | res pr2 =>
      simp only [orLoop, hp] at h
      injection h with h2
      subst h2
      exact H r start stack pr2 hs hp
    | noMatch =>
      simp only [orLoop, hp] at h
      exact ih pr hs h
    | fatal e2 =>
      simp only [orLoop, hp] at h
      exact ParseOutcome.noConfusion h
    | outOfFuel =>
      simp only [orLoop, hp] at h
      exact ParseOutcome.noConfusion h

/-- Bounds for longest-match choice, with the running best already within
bounds. -/
theorem orLongestLoop_bounds (prev : ParseFn) (input : List Token) (start : Nat)
    (stack : List String) (H : PrevBounded prev input) :
    ∀ (opts : List Rule) (best : Option ParseResult) (pr : ParseResult),
    start ≤ input.length →
    (∀ b, best = some b → start ≤ b.endIdx ∧ b.endIdx ≤ input.length) →
    orLongestLoop prev input start stack opts best = .res pr →
    start ≤ pr.endIdx ∧ pr.endIdx ≤ input.length := by
  intro opts
  induction opts with
  | nil =>
    intro best pr _ hbest h
    cases best with
    | none => exact ParseOutcome.noConfusion h
    | some b =>
      have hb : ParseOutcome.res b = ParseOutcome.res pr := h
      injection hb with h2
      subst h2
      exact hbest b rfl
  | cons r rest ih =>
    intro best pr hs hbest h
    cases hp : prev r input start stack with
    | res pr2 =>
      simp only [orLongestLoop, hp] at h
      refine ih (keepLonger best pr2) pr hs ?_ h
      intro b hb
      have hb2 := H r start stack pr2 hs hp
      cases best with
      | none =>
        simp only [keepLonger] at hb
        injection hb with h2
        subst h2
        exact hb2
      | some b0 =>
        simp only [keepLonger] at hb
        by_cases hcmp : pr2.endIdx > b0.endIdx
        · rw [if_pos hcmp] at hb
          injection hb with h2
          subst h2
          exact hb2
        · rw [if_neg hcmp] at hb
          injection hb with h2
          subst h2
          exact hbest b0 rfl
    | noMatch =>
      simp only [orLongestLoop, hp] at h
      exact ih best pr hs hbest h
    | fatal e2 =>
      simp only [orLongestLoop, hp] at h
      exact ParseOutcome.noConfusion h
    | outOfFuel =>
      simp only [orLongestLoop, hp] at h
      exact ParseOutcome.noConfusion h

/-- Bounds for the underlying parse function of any rule, by recursion on
the rule size (only renaming wraps another rule at the same fuel level):
when every sub-rule invocation through prev is bounded, a successful result
of parseInternal never moves backward and stays within the input. -/
theorem parseInternal_bounds (g : Env) (input : List Token) :
    ∀ (n : Nat) (prev : ParseFn) (fuel : Nat), PrevBounded prev input →
    ∀ (r : Rule), sizeOf r < n → ∀ (start : Nat) (stack : List String) (pr : ParseResult),
    start ≤ input.length → parseInternal g prev fuel r input start stack = .res pr →
    start ≤ pr.endIdx ∧ pr.endIdx ≤ input.length := by
  intro n
  induction n with
  | zero =>
    intro prev fuel H r hr
    exact absurd hr (Nat.not_lt_zero _)
  | succ n ih =>
    intro prev fuel H r hr start stack pr hs h
    cases r with
    | token k =>
      simp only [parseInternal] at h
      split at h
      · exact ParseOutcome.noConfusion h
      · split at h
        · injection h with h2
          subst h2
          refine ⟨Nat.le_succ start, ?_⟩
          show start + 1 ≤ input.length
          omega
        · exact ParseOutcome.noConfusion h
    | concat rs =>
      cases hc : concatLoop prev input stack rs [] start with
      | res p =>
        obtain ⟨vs, e⟩ := p
        simp only [parseInternal, hc] at h
        injection h with h2
        subst h2
        have := concatLoop_bounds prev input stack H rs [] start vs e hs hc
        exact this
      | noMatch =>
        simp only [parseInternal, hc] at h
        exact ParseOutcome.noConfusion h
      | fatal e2 =>
        simp only [parseInternal, hc] at h
        exact ParseOutcome.noConfusion h
      | outOfFuel =>
        simp only [parseInternal, hc] at h
        exact ParseOutcome.noConfusion h
    | first rs =>
      cases hc : prev (.concat rs) input start stack with
      | res pr2 =>
        simp only [parseInternal, hc] at h
        injection h with h2
        subst h2
        exact H (.concat rs) start stack pr2 hs hc
      | noMatch =>
        simp only [parseInternal, hc] at h
        exact ParseOutcome.noConfusion h
      | fatal e2 =>
        simp only [parseInternal, hc] at h
        exact ParseOutcome.noConfusion h
      | outOfFuel =>
        simp only [parseInternal, hc] at h
        exact ParseOutcome.noConfusion h
    | last rs =>
      cases hc : prev (.concat rs) input start stack with
      | res pr2 =>
        simp only [parseInternal, hc] at h
        injection h with h2
        subst h2
        exact H (.concat rs) start stack pr2 hs hc
      | noMatch =>
        simp only [parseInternal, hc] at h
        exact ParseOutcome.noConfusion h
      | fatal e2 =>
        simp only [parseInternal, hc] at h
        exact ParseOutcome.noConfusion h
      | outOfFuel =>
        simp only [parseInternal, hc] at h
        exact ParseOutcome.noConfusion h
    | or opts =>
      simp only [parseInternal] at h
      exact orLoop_bounds prev input start stack H opts pr hs h
    | orLongest opts =>
      simp only [parseInternal] at h
      exact orLongestLoop_bounds prev input start stack H opts none pr hs
        (fun b hb => Option.noConfusion hb) h
    | not r2 =>
      cases hc : prev r2 input start stack with
      | res pr2 =>
        simp only [parseInternal, hc] at h
        exact ParseOutcome.noConfusion h
      | noMatch =>
        simp only [parseInternal, hc] at h
        injection h with h2
        subst h2
        exact ⟨le_refl _, hs⟩
      | fatal e2 =>
        simp only [parseInternal, hc] at h
        exact ParseOutcome.noConfusion h
      | outOfFuel =>
        simp only [parseInternal, hc] at h
        exact ParseOutcome.noConfusion h
    | map r2 f =>
      cases hc : prev r2 input start stack with
      | res pr2 =>
        simp only [parseInternal, hc] at h
        injection h with h2
        subst h2
        exact H r2 start stack pr2 hs hc
      | noMatch =>
        simp only [parseInternal, hc] at h
        exact ParseOutcome.noConfusion h
      | fatal e2 =>
        simp only [parseInternal, hc] at h
        exact ParseOutcome.noConfusion h
      | outOfFuel =>
        simp only [parseInternal, hc] at h
        exact ParseOutcome.noConfusion h
    | filter r2 f =>
      cases hc : prev r2 input start stack with
      | res pr2 =>
        simp only [parseInternal, hc] at h
        split at h
        · injection h with h2
          subst h2
          exact H r2 start stack pr2 hs hc
        · exact ParseOutcome.noConfusion h
      | noMatch =>
        simp only [parseInternal, hc] at h
        exact ParseOutcome.noConfusion h
      | fatal e2 =>
        simp only [parseInternal, hc] at h
        exact ParseOutcome.noConfusion h
      | outOfFuel =>
        simp only [parseInternal, hc] at h
        exact ParseOutcome.noConfusion h
    | filterMap r2 f =>
      cases hc : prev r2 input start stack with
      | res pr2 =>
        simp only [parseInternal, hc] at h
        split at h
        · injection h with h2
          subst h2
          exact H r2 start stack pr2 hs hc
        · exact ParseOutcome.noConfusion h
      | noMatch =>
        simp only [parseInternal, hc] at h
        exact ParseOutcome.noConfusion h
      | fatal e2 =>
        simp only [parseInternal, hc] at h
        exact ParseOutcome.noConfusion h
      | outOfFuel =>
        simp only [parseInternal, hc] at h
        exact ParseOutcome.noConfusion h
    | opt r2 =>
      cases hc : prev r2 input start stack with
      | res pr2 =>
        simp only [parseInternal, hc] at h
        injection h with h2
        subst h2
        exact H r2 start stack pr2 hs hc
      | noMatch =>
        simp only [parseInternal, hc] at h
        injection h with h2
        subst h2
        exact ⟨le_refl _, hs⟩
      | fatal e2 =>
        simp only [parseInternal, hc] at h
        exact ParseOutcome.noConfusion h
      | outOfFuel =>
        simp only [parseInternal, hc] at h
        exact ParseOutcome.noConfusion h
    | rep rule sep mn mx =>
      cases hc : repGreedy prev fuel rule sep input start stack with
      | res p =>
        obtain ⟨vs, e⟩ := p
        have hb := repGreedy_bounds prev fuel rule sep input start stack H vs e hs hc
        cases mx with
        | none =>
          simp only [parseInternal, hc] at h
          split at h
          · exact ParseOutcome.noConfusion h
          · injection h with h2
            subst h2
            exact hb
        | some m =>
          simp only [parseInternal, hc] at h
          split at h
          · exact ParseOutcome.noConfusion h
          · split at h
            · exact ParseOutcome.noConfusion h
            · injection h with h2
              subst h2
              exact hb
      | noMatch =>
        simp only [parseInternal, hc] at h
        exact ParseOutcome.noConfusion h
      | fatal e2 =>
        simp only [parseInternal, hc] at h
        exact ParseOutcome.noConfusion h
      | outOfFuel =>
        simp only [parseInternal, hc] at h
        exact ParseOutcome.noConfusion h
    | sub k =>
      cases hl : lookupRule g k with
      | some r2 =>
        simp only [parseInternal, hl] at h
        exact H r2 start stack pr hs h
      | none =>
        simp only [parseInternal, hl] at h
        exact ParseOutcome.noConfusion h
    | withName n2 r2 =>
      refine ih prev fuel H r2 ?_ start stack pr hs h
      have hsz : sizeOf (Rule.withName n2 r2) = 1 + sizeOf n2 + sizeOf r2 := rfl
      omega

/-! Claim theorems. -/

/-- C1: the claim states that every top-level parse terminates, in
particular that the repetition engine never loops forever even when its
element rule can succeed without consuming input.  The code violates this:
for the grammar with single root star(opt(token(A))) and the empty input,
the repetition loop re-attempts the element at the same offset with the
same derivation path forever, so the model exhausts every fuel bound. -/
theorem star_nullable_diverges (fuel : Nat) :
    Parser.parse nullableStarParser fuel [] = .outOfFuel := by
  have h : rootsLoop nullableStarParser.rules fuel [] ["r"] none = .outOfFuel := by
    simp only [rootsLoop]
    rw [show lookupRule nullableStarParser.rules "r" = some (.withName "r" nullableStar) from rfl]
    simp only [rootRule_nullable_oof]
  show (match rootsLoop nullableStarParser.rules fuel [] ["r"] none with
    | .noMatch => ParseOutcome.fatal .failedToParse
    | .res pr =>
      if pr.endIdx < ([] : List Token).length
      then ParseOutcome.fatal (.trailingInput (([] : List Token).getD pr.endIdx ⟨"", ""⟩))
      else ParseOutcome.res pr.value
    | .fatal e => ParseOutcome.fatal e
    | .outOfFuel => ParseOutcome.outOfFuel) = .outOfFuel
  rw [h]

/-- C2: the guarded entry point computes the marker name:start; when the
marker already occurs in the derivation path it throws the loop error
reporting the full path followed by the offending marker, and otherwise it
invokes the underlying parse function with the path extended by the marker,
the path of the caller itself being unchanged. -/
theorem parse_guard_spec (g : Env) (fuel : Nat) (r : Rule) (input : List Token) (start : Nat)
    (stack : List String) :
    parse g (fuel + 1) r input start stack =
      if stack.contains (r.marker start) then .fatal (.loopDetected stack (r.marker start))
      else parseInternal g (parse g fuel) fuel r input start (stack ++ [r.marker start]) := rfl

/-- C4: in a repetition with a configured separator, when the separator
succeeds at the current end but the element attempt that follows it fails,
the loop stops with the accumulated values and the end offset still at the
position before the separator attempt, so the dangling separator is never
consumed. -/
theorem rep_separator_revert (prev : ParseFn) (rule s : Rule) (input : List Token)
    (stack : List String) (iter : Nat) (acc : List Value) (curEnd : Nat) (sepRes : ParseResult)
    (hsep : prev s input curEnd stack = .res sepRes)
    (helem : prev rule input sepRes.endIdx stack = .noMatch) :
    repLoop prev rule (some s) input stack (iter + 1) acc curEnd = .res (acc, curEnd) := by
  simp [repLoop, hsep, helem]

/-- Witness for C4: star(token(A), token(S)) internals over the tokens A S,
with the separator matching at offset 1 and the element failing at offset
2: the loop stops at offset 1 and the separator is not consumed. -/
theorem rep_separator_revert_witness :
    repLoop (parse [] 5) (.token "A") (some (.token "S")) [⟨"A", "a"⟩, ⟨"S", "s"⟩]
      ["w:0"] 4 [.tok "a"] 1 = .res ([.tok "a"], 1) :=
  rep_separator_revert (parse [] 5) (.token "A") (.token "S") [⟨"A", "a"⟩, ⟨"S", "s"⟩]
    ["w:0"] 3 [.tok "a"] 1 ⟨.tok "s", 2⟩ rfl rfl

/-- C5: when the greedy phase of a repetition produces the value list vs
with final end offset e, the repetition fails outright when the count is
below min or above a defined max, and otherwise succeeds with exactly the
ordered values and the last successful end offset. -/
theorem rep_acceptance (g : Env) (fuel : Nat) (rule : Rule) (sep : Option Rule) (mn : Nat)
    (mx : Option Nat) (input : List Token) (start : Nat) (stack : List String)
    (vs : List Value) (e : Nat)
    (hguard : stack.contains ((Rule.rep rule sep mn mx).marker start) = false)
    (hg : repGreedy (parse g fuel) fuel rule sep input start
        (stack ++ [(Rule.rep rule sep mn mx).marker start]) = .res (vs, e)) :
    parse g (fuel + 1) (.rep rule sep mn mx) input start stack =
      if vs.length < mn then .noMatch
      else
        match mx with
        | some m => if m < vs.length then .noMatch else .res ⟨.list vs, e⟩
        | none => .res ⟨.list vs, e⟩ := by
  rw [parse_unfold, hguard]
  simp only [Bool.false_eq_true, if_false, parseInternal, hg]
  cases mx <;> rfl

/-- Witness for C5: rep(token(A), 0, 1) over two A tokens greedily matches
both, the count 2 exceeds the max 1, and the repetition fails wholesale
rather than truncating. -/
theorem rep_acceptance_witness :
    parse [] 10 (.rep (.token "A") none 0 (some 1)) [⟨"A", "a"⟩, ⟨"A", "b"⟩] 0 [] = .noMatch := by
  have h := rep_acceptance [] 9 (.token "A") none 0 (some 1) [⟨"A", "a"⟩, ⟨"A", "b"⟩] 0 []
    [.tok "a", .tok "b"] 2 rfl rfl
  simpa using h

/-- C7: not(R) succeeds consuming nothing exactly when R fails at the
position, fails when R succeeds, and never advances the end offset. -/
theorem not_spec (g : Env) (fuel : Nat) (r : Rule) (input : List Token) (start : Nat)
    (stack : List String)
    (hguard : stack.contains ((Rule.not r).marker start) = false) :
    (parse g fuel r input start (stack ++ [(Rule.not r).marker start]) = .noMatch →
      parse g (fuel + 1) (.not r) input start stack = .res ⟨.undefined, start⟩) ∧
    (∀ pr, parse g fuel r input start (stack ++ [(Rule.not r).marker start]) = .res pr →
      parse g (fuel + 1) (.not r) input start stack = .noMatch) ∧
    (∀ pr, parse g (fuel + 1) (.not r) input start stack = .res pr → pr = ⟨.undefined, start⟩) := by
  rw [parse_unfold, hguard]
  simp only [Bool.false_eq_true, if_false]
  refine ⟨fun h => by simp [parseInternal, h], fun pr h => by simp [parseInternal, h], ?_⟩
  intro pr h
  cases hh : parse g fuel r input start (stack ++ [(Rule.not r).marker start]) with
  | res pr2 => simp [parseInternal, hh] at h
  | noMatch => simp [parseInternal, hh] at h; exact h.symm
  | fatal e => simp [parseInternal, hh] at h
  | outOfFuel => simp [parseInternal, hh] at h

/-- Witness for C7: not(token(A)) at offset 0 of a B token, where the
wrapped rule fails: the lookahead succeeds with the end offset at 0. -/
theorem not_spec_witness :
    parse [] 5 (.not (.token "A")) [⟨"B", "b"⟩] 0 [] = .res ⟨.undefined, 0⟩ :=
  (not_spec [] 4 (.token "A") [⟨"B", "b"⟩] 0 [] rfl).1 rfl

/-- C3: the driver attempts every root at offset 0 with an empty derivation
path; provided no attempt throws (and the fuel suffices), it fails with
failedToParse exactly when no root succeeds; otherwise it selects the first
result with the greatest end offset among the per-root attempts, throws
trailingInput naming the first unconsumed token exactly when the selected
end offset is below the input length, and returns the selected value
otherwise. -/
theorem parser_parse_spec (p : Parser) (fuel : Nat) (input : List Token)
    (hok : ∀ k ∈ p.roots, (rootAttempt p.rules fuel input k).isAbort = false) :
    (Parser.parse p fuel input = .fatal .failedToParse ↔
      ∀ a ∈ rootAtts p fuel input, a = none) ∧
    (∀ v, Parser.parse p fuel input = .res v →
      ∃ i pr, (rootAtts p fuel input).getD i none = some pr ∧ pr.value = v ∧
        input.length ≤ pr.endIdx ∧
        (∀ j pr2, (rootAtts p fuel input).getD j none = some pr2 → pr2.endIdx ≤ pr.endIdx) ∧
        (∀ j, j < i → ∀ pr2, (rootAtts p fuel input).getD j none = some pr2 →
          pr2.endIdx < pr.endIdx)) ∧
    (∀ t, Parser.parse p fuel input = .fatal (.trailingInput t) →
      ∃ i pr, (rootAtts p fuel input).getD i none = some pr ∧ pr.endIdx < input.length ∧
        t = input.getD pr.endIdx ⟨"", ""⟩ ∧
        (∀ j pr2, (rootAtts p fuel input).getD j none = some pr2 → pr2.endIdx ≤ pr.endIdx) ∧
        (∀ j, j < i → ∀ pr2, (rootAtts p fuel input).getD j none = some pr2 →
          pr2.endIdx < pr.endIdx)) ∧
    ((∃ a ∈ rootAtts p fuel input, a ≠ none) →
      (∃ v, Parser.parse p fuel input = .res v) ∨
      (∃ t, Parser.parse p fuel input = .fatal (.trailingInput t))) := by
  have hmap : ∀ a ∈ p.roots.map (rootAttempt p.rules fuel input), a.isAbort = false := by
    intro a ha
    obtain ⟨k, hk, rfl⟩ := List.mem_map.1 ha
    exact hok k hk
  have hsel : rootsLoop p.rules fuel input p.roots none =
      (match pickLongest (rootAtts p fuel input) with
       | some b => ParseOutcome.res b
       | none => ParseOutcome.noMatch) := by
    rw [rootsLoop_eq_selLoop, selLoop_noAbort _ none hmap, merge2_none_left]
    have hl : (p.roots.map (rootAttempt p.rules fuel input)).map ParseOutcome.toOption =
        rootAtts p fuel input := by
      simp only [rootAtts, List.map_map]
      rfl
    rw [hl]
  cases hpick : pickLongest (rootAtts p fuel input) with
  | none =>
    have hP : Parser.parse p fuel input = .fatal .failedToParse := by
      simp only [Parser.parse, hsel, hpick]
    refine ⟨?_, ?_, ?_, ?_⟩
    · exact iff_of_true hP ((pickLongest_eq_none_iff _).1 hpick)
    · intro v hv
      rw [hP] at hv
      exact absurd hv (by simp)
    · intro t ht
      rw [hP] at ht
      simp at ht
    · rintro ⟨a, ha, hne⟩
      exact absurd ((pickLongest_eq_none_iff _).1 hpick a ha) hne
  | some pr =>
    obtain ⟨i, h1, h2, h3⟩ := pickLongest_spec _ pr hpick
    have hP : Parser.parse p fuel input =
        (if pr.endIdx < input.length
         then .fatal (.trailingInput (input.getD pr.endIdx ⟨"", ""⟩))
         else .res pr.value) := by
      simp only [Parser.parse, hsel, hpick]
    by_cases hlen : pr.endIdx < input.length
    · have hP2 : Parser.parse p fuel input =
          .fatal (.trailingInput (input.getD pr.endIdx ⟨"", ""⟩)) := by
        rw [hP, if_pos hlen]
      refine ⟨?_, ?_, ?_, ?_⟩
      · constructor
        · intro hh
          rw [hP2] at hh
          simp at hh
        · intro hall
          have := (pickLongest_eq_none_iff _).2 hall
          rw [hpick] at this
          exact Option.noConfusion this
      · intro v hv
        rw [hP2] at hv
        exact absurd hv (by simp)
      · intro t ht
        rw [hP2] at ht
        have hteq : input.getD pr.endIdx ⟨"", ""⟩ = t := by
          injection ht with ht2
          injection ht2
        exact ⟨i, pr, h1, hlen, hteq.symm, h2, h3⟩
      · intro _
        right
        exact ⟨_, hP2⟩
    · have hP2 : Parser.parse p fuel input = .res pr.value := by
        rw [hP, if_neg hlen]
      refine ⟨?_, ?_, ?_, ?_⟩
      · constructor
        · intro hh
          rw [hP2] at hh
          simp at hh
        · intro hall
          have := (pickLongest_eq_none_iff _).2 hall
          rw [hpick] at this
          exact Option.noConfusion this
      · intro v hv
        rw [hP2] at hv
        have hv2 : pr.value = v := by injection hv
        exact ⟨i, pr, h1, hv2, by omega, h2, h3⟩
      · intro t ht
        rw [hP2] at ht
        exact absurd ht (by simp)
      · intro _
        left
        exact ⟨_, hP2⟩

/-- Witness for C3: the two-root parser on two A tokens, where root a
consumes one token and root b consumes both: applying the driver theorem
yields the selected attempt, here root b, the first attempt of greatest
end offset, consuming the full input. -/
theorem parser_parse_spec_witness :
    ∃ i pr, (rootAtts selParser 10 [⟨"A", "x"⟩, ⟨"A", "y"⟩]).getD i none = some pr ∧
      pr.value = .list [.tok "x", .tok "y"] ∧
      ([⟨"A", "x"⟩, ⟨"A", "y"⟩] : List Token).length ≤ pr.endIdx ∧
      (∀ j pr2, (rootAtts selParser 10 [⟨"A", "x"⟩, ⟨"A", "y"⟩]).getD j none = some pr2 →
        pr2.endIdx ≤ pr.endIdx) ∧
      (∀ j, j < i → ∀ pr2,
        (rootAtts selParser 10 [⟨"A", "x"⟩, ⟨"A", "y"⟩]).getD j none = some pr2 →
        pr2.endIdx < pr.endIdx) :=
  (parser_parse_spec selParser 10 [⟨"A", "x"⟩, ⟨"A", "y"⟩] (by decide)).2.1
    (.list [.tok "x", .tok "y"]) rfl

/-- C6: orLongest, provided no option attempt throws (and the fuel
suffices), fails exactly when every option fails, and otherwise returns the
first-encountered result among those with the strictly greatest end offset;
moreover every option is attempted from the same start offset with no
short-circuit, so a thrown error in a later option aborts the choice even
when an earlier option already succeeded. -/
theorem orLongest_spec (g : Env) (fuel : Nat) (opts : List Rule) (input : List Token)
    (start : Nat) (stack : List String)
    (hguard : stack.contains ((Rule.orLongest opts).marker start) = false) :
    ((∀ r ∈ opts, (parse g fuel r input start
        (stack ++ [(Rule.orLongest opts).marker start])).isAbort = false) →
      ((parse g (fuel + 1) (.orLongest opts) input start stack = .noMatch ↔
        ∀ a ∈ orLongestAtts g fuel opts input start
          (stack ++ [(Rule.orLongest opts).marker start]), a = none) ∧
       (∀ pr, parse g (fuel + 1) (.orLongest opts) input start stack = .res pr →
        ∃ i, (orLongestAtts g fuel opts input start
            (stack ++ [(Rule.orLongest opts).marker start])).getD i none = some pr ∧
          (∀ j pr2, (orLongestAtts g fuel opts input start
              (stack ++ [(Rule.orLongest opts).marker start])).getD j none = some pr2 →
            pr2.endIdx ≤ pr.endIdx) ∧
          (∀ j, j < i → ∀ pr2, (orLongestAtts g fuel opts input start
              (stack ++ [(Rule.orLongest opts).marker start])).getD j none = some pr2 →
            pr2.endIdx < pr.endIdx)))) ∧
    (∀ l1 r l2 e, opts = l1 ++ r :: l2 →
      (∀ r2 ∈ l1, (parse g fuel r2 input start
        (stack ++ [(Rule.orLongest opts).marker start])).isAbort = false) →
      parse g fuel r input start (stack ++ [(Rule.orLongest opts).marker start]) = .fatal e →
      parse g (fuel + 1) (.orLongest opts) input start stack = .fatal e) := by
  have hunf : parse g (fuel + 1) (.orLongest opts) input start stack =
      orLongestLoop (parse g fuel) input start
        (stack ++ [(Rule.orLongest opts).marker start]) opts none := by
    rw [parse_unfold, hguard]
    simp only [Bool.false_eq_true, if_false]
    rfl
  constructor
  · intro hab
    have hmap : ∀ a ∈ opts.map (fun r => parse g fuel r input start
        (stack ++ [(Rule.orLongest opts).marker start])), a.isAbort = false := by
      intro a ha
      obtain ⟨r, hr, rfl⟩ := List.mem_map.1 ha
      exact hab r hr
    have hl : (opts.map (fun r => parse g fuel r input start
          (stack ++ [(Rule.orLongest opts).marker start]))).map ParseOutcome.toOption =
        orLongestAtts g fuel opts input start
          (stack ++ [(Rule.orLongest opts).marker start]) := by
      simp only [orLongestAtts, List.map_map]
      rfl
    have hsel : parse g (fuel + 1) (.orLongest opts) input start stack =
        (match pickLongest (orLongestAtts g fuel opts input start
            (stack ++ [(Rule.orLongest opts).marker start])) with
         | some b => ParseOutcome.res b
         | none => ParseOutcome.noMatch) := by
      rw [hunf, orLongestLoop_eq_selLoop, selLoop_noAbort _ none hmap, merge2_none_left, hl]
    cases hpick : pickLongest (orLongestAtts g fuel opts input start
        (stack ++ [(Rule.orLongest opts).marker start])) with
    | none =>
      refine ⟨iff_of_true (by rw [hsel, hpick]) ((pickLongest_eq_none_iff _).1 hpick), ?_⟩
      intro pr hpr
      rw [hsel, hpick] at hpr
      exact absurd hpr (by simp)
    | some pr =>
      refine ⟨?_, ?_⟩
      · constructor
        · intro h
          rw [hsel, hpick] at h
          exact absurd h (by simp)
        · intro hall
          have := (pickLongest_eq_none_iff _).2 hall
          rw [hpick] at this
          exact Option.noConfusion this
      · intro pr2 hpr2
        rw [hsel, hpick] at hpr2
        have : pr = pr2 := by injection hpr2
        subst this
        exact pickLongest_spec _ pr hpick
  · intro l1 r l2 e hopts hab hr
    rw [hunf, orLongestLoop_eq_selLoop]
    set st := stack ++ [(Rule.orLongest opts).marker start] with hst
    rw [hopts, List.map_append, List.map_cons, hr]
    refine selLoop_fatal_propagates _ e _ none ?_
    intro a ha
    obtain ⟨r2, hr2, rfl⟩ := List.mem_map.1 ha
    exact hab r2 hr2

/-- Witness for C6: orLongest of an option matching two tokens and an
option matching three, over three A tokens: the theorem yields that the
returned result, the three-token match, is an attempt of maximal end
offset with every earlier success strictly shorter. -/
theorem orLongest_spec_witness :
    ∃ i, (orLongestAtts [] 9 longOptsW inputW3 0
        ([] ++ [(Rule.orLongest longOptsW).marker 0])).getD i none =
      some ⟨.list [.tok "x", .tok "y", .tok "z"], 3⟩ ∧
      (∀ j pr2, (orLongestAtts [] 9 longOptsW inputW3 0
          ([] ++ [(Rule.orLongest longOptsW).marker 0])).getD j none = some pr2 →
        pr2.endIdx ≤ 3) ∧
      (∀ j, j < i → ∀ pr2, (orLongestAtts [] 9 longOptsW inputW3 0
          ([] ++ [(Rule.orLongest longOptsW).marker 0])).getD j none = some pr2 →
        pr2.endIdx < 3) :=
  ((orLongest_spec [] 9 longOptsW inputW3 0 [] rfl).1 (by decide)).2
    ⟨.list [.tok "x", .tok "y", .tok "z"], 3⟩ rfl

/-- C8: a sequence succeeds exactly on a chained run in which rule 1 is
invoked at the start offset and each subsequent rule at the end of its
predecessor, producing the ordered list of element values and the final
end offset; it fails exactly when some leading part chains and the next rule
then fails at the chained offset, each element getting exactly one
attempt. -/
theorem concat_spec (g : Env) (fuel : Nat) (rs : List Rule) (input : List Token) (start : Nat)
    (stack : List String)
    (hguard : stack.contains ((Rule.concat rs).marker start) = false) :
    (∀ vs e, parse g (fuel + 1) (.concat rs) input start stack = .res ⟨.list vs, e⟩ ↔
      Chain (parse g fuel) input (stack ++ [(Rule.concat rs).marker start]) rs start vs e) ∧
    (parse g (fuel + 1) (.concat rs) input start stack = .noMatch ↔
      ∃ rs1 r rs2 vs m, rs = rs1 ++ r :: rs2 ∧
        Chain (parse g fuel) input (stack ++ [(Rule.concat rs).marker start]) rs1 start vs m ∧
        parse g fuel r input m (stack ++ [(Rule.concat rs).marker start]) = .noMatch) := by
  have hunf : parse g (fuel + 1) (.concat rs) input start stack =
      (match concatLoop (parse g fuel) input (stack ++ [(Rule.concat rs).marker start])
          rs [] start with
       | .res (vs, e) => ParseOutcome.res ⟨.list vs, e⟩
       | .noMatch => ParseOutcome.noMatch
       | .fatal e => ParseOutcome.fatal e
       | .outOfFuel => ParseOutcome.outOfFuel) := by
    rw [parse_unfold, hguard]
    simp only [Bool.false_eq_true, if_false]
    rfl
  constructor
  · intro vs e
    rw [hunf]
    cases hc : concatLoop (parse g fuel) input (stack ++ [(Rule.concat rs).marker start])
        rs [] start with
    | res p =>
      obtain ⟨vs0, e0⟩ := p
      obtain ⟨vs1, hw, hch⟩ :=
        (concatLoop_res_iff (parse g fuel) input _ rs [] start vs0 e0).1 hc
      rw [List.nil_append] at hw
      subst hw
      constructor
      · intro h
        have h2 : Value.list vs0 = Value.list vs ∧ e0 = e := by
          injection h with h1
          injection h1 with hv he
          exact ⟨hv, he⟩
        obtain ⟨hv, he⟩ := h2
        injection hv with hv2
        subst hv2
        subst he
        exact hch
      · intro hch2
        have := (concatLoop_res_iff (parse g fuel) input _ rs [] start vs e).2
          ⟨vs, by simp, hch2⟩
        rw [hc] at this
        injection this with h1
        injection h1 with hv he
        subst hv
        subst he
        rfl
    | noMatch =>
      constructor
      · intro h
        exact ParseOutcome.noConfusion h
      · intro hch2
        have := (concatLoop_res_iff (parse g fuel) input _ rs [] start vs e).2
          ⟨vs, by simp, hch2⟩
        rw [hc] at this
        exact ParseOutcome.noConfusion this
    | fatal e2 =>
      constructor
      · intro h
        exact ParseOutcome.noConfusion h
      · intro hch2
        have := (concatLoop_res_iff (parse g fuel) input _ rs [] start vs e).2
          ⟨vs, by simp, hch2⟩
        rw [hc] at this
        exact ParseOutcome.noConfusion this
    | outOfFuel =>
      constructor
      · intro h
        exact ParseOutcome.noConfusion h
      · intro hch2
        have := (concatLoop_res_iff (parse g fuel) input _ rs [] start vs e).2
          ⟨vs, by simp, hch2⟩
        rw [hc] at this
        exact ParseOutcome.noConfusion this
  · rw [hunf]
    cases hc : concatLoop (parse g fuel) input (stack ++ [(Rule.concat rs).marker start])
        rs [] start with
    | res p =>
      obtain ⟨vs0, e0⟩ := p
      constructor
      · intro h
        exact ParseOutcome.noConfusion h
      · intro hex
        have := (concatLoop_noMatch_iff (parse g fuel) input _ rs [] start).2 hex
        rw [hc] at this
        exact ParseOutcome.noConfusion this
    | noMatch =>
      exact iff_of_true rfl ((concatLoop_noMatch_iff (parse g fuel) input _ rs [] start).1 hc)
    | fatal e2 =>
      constructor
      · intro h
        exact ParseOutcome.noConfusion h
      · intro hex
        have := (concatLoop_noMatch_iff (parse g fuel) input _ rs [] start).2 hex
        rw [hc] at this
        exact ParseOutcome.noConfusion this
    | outOfFuel =>
      constructor
      · intro h
        exact ParseOutcome.noConfusion h
      · intro hex
        have := (concatLoop_noMatch_iff (parse g fuel) input _ rs [] start).2 hex
        rw [hc] at this
        exact ParseOutcome.noConfusion this

/-- Witness for C8: concat(token(A), token(B)) over the tokens A B chains
through both elements, rule 1 at offset 0 and rule 2 at offset 1, ending
at offset 2. -/
theorem concat_spec_witness :
    Chain (parse [] 9) [⟨"A", "a"⟩, ⟨"B", "b"⟩]
      ([] ++ [(Rule.concat [.token "A", .token "B"]).marker 0])
      [.token "A", .token "B"] 0 [.tok "a", .tok "b"] 2 :=
  ((concat_spec [] 9 [.token "A", .token "B"] [⟨"A", "a"⟩, ⟨"B", "b"⟩] 0 [] rfl).1
    [.tok "a", .tok "b"] 2).1 rfl

/-- C10: for every rule built from the combinators (every term of the Rule
language) and every input, start offset within the input and derivation
path, whenever the guarded parse returns a result its end offset satisfies
start less-or-equal end less-or-equal input length: a successful match
never moves backward and never reports a position past the end of the
input. -/
theorem parse_end_bounds (g : Env) (fuel : Nat) (r : Rule) (input : List Token) (start : Nat)
    (stack : List String) (pr : ParseResult)
    (hs : start ≤ input.length)
    (h : parse g fuel r input start stack = .res pr) :
    start ≤ pr.endIdx ∧ pr.endIdx ≤ input.length := by
  have main : ∀ fuel, PrevBounded (parse g fuel) input := by
    intro fuel
    induction fuel with
    | zero =>
      intro r2 s st pr2 hs2 h2
      exact ParseOutcome.noConfusion h2
    | succ n ihn =>
      intro r2 s st pr2 hs2 h2
      rw [parse_unfold] at h2
      split at h2
      · exact ParseOutcome.noConfusion h2
      · exact parseInternal_bounds g input (sizeOf r2 + 1) (parse g n) n ihn r2
          (Nat.lt_succ_self _) s _ pr2 hs2 h2
  exact main fuel r start stack pr hs h

/-- Witness for C10: token(A) on a one-token input from offset 0 returns a
result ending at offset 1, within the bounds 0 and the input length. -/
theorem parse_end_bounds_witness :
    (0 : Nat) ≤ 1 ∧ (1 : Nat) ≤ ([⟨"A", "a"⟩] : List Token).length :=
  parse_end_bounds [] 5 (.token "A") [⟨"A", "a"⟩] 0 [] ⟨.tok "a", 1⟩ (by omega) rfl

/-- C9 counterexample: renaming is claimed to leave parse behavior identical
on every input, start and path.  It does not: the rule opt(token(A)) renamed
to the string token(A) collides with the marker of its own inner token rule
and throws the loop error on the empty input, while the same rule renamed to
y parses successfully. -/
theorem withName_counterexample :
    parse [] 5 (.withName "token(A)" (.opt (.token "A"))) [] 0 [] ≠
      parse [] 5 (.withName "y" (.withName "token(A)" (.opt (.token "A")))) [] 0 [] := by
  intro h
  rw [show parse [] 5 (.withName "token(A)" (.opt (.token "A"))) [] 0 [] =
        .fatal (.loopDetected ["token(A):0"] "token(A):0") from rfl,
      show parse [] 5 (.withName "y" (.withName "token(A)" (.opt (.token "A")))) [] 0 [] =
        .res ⟨.optRes false .undefined, 0⟩ from rfl] at h
  exact ParseOutcome.noConfusion h

/-- C9 (amended): renaming produces a new Rule carrying the new name and
sharing the original underlying parse function unchanged, so the renamed
rule parses by applying the recursion guard with the new marker to exactly
the parse function of the original; behavior can differ only through that
marker. -/
theorem withName_spec (g : Env) (prev : ParseFn) (fuel : Nat) (n : String) (r : Rule)
    (input : List Token) (start : Nat) (stack : List String) :
    (Rule.withName n r).name = n ∧
    parseInternal g prev fuel (.withName n r) input start stack =
      parseInternal g prev fuel r input start stack ∧
    parse g (fuel + 1) (.withName n r) input start stack =
      (if stack.contains (n ++ ":" ++ toString start)
       then .fatal (.loopDetected stack (n ++ ":" ++ toString start))
       else parseInternal g (parse g fuel) fuel r input start
         (stack ++ [n ++ ":" ++ toString start])) :=
  ⟨rfl, rfl, rfl⟩

end ParserTs
